import Mathlib

/-!
# Verification of the scphylo-tools analytical core

Shallow embedding of the conflict-free (perfect phylogeny) checkers from
`src/scphylo/ul/_utils.py` and of the pairwise tree-metric scoring functions
from `src/scphylo/tl/score/_ours.py`, together with proofs of the spec claims.

A genotype matrix (the result of `df.astype(int).values`) is embedded as a
function `Fin n → Fin m → ℤ` (n cells = rows, m mutations = columns).
Fallible Python code (uncaught `ZeroDivisionError`, aborts through
`scp.logg.error`) is embedded as `Option`-returning functions.
-/

namespace Scphylo

/-! ## Conflict checkers (src/scphylo/ul/_utils.py)

Both checkers open with the same value gate
`np.array_equal(np.unique(D), [0, 1])` (lines 207 and 257): the set of values
occurring in the matrix must be exactly {0, 1} — every entry is 0 or 1, some
entry is 0 and some entry is 1 — otherwise the function returns `False`. -/

/-- The value gate `np.array_equal(np.unique(D), [0, 1])` of both checkers. -/
def binaryGate (n m : ℕ) (A : Fin n → Fin m → ℤ) : Prop :=
  (∀ i j, A i j = 0 ∨ A i j = 1) ∧ (∃ i j, A i j = 0) ∧ (∃ i j, A i j = 1)

instance (n m : ℕ) (A : Fin n → Fin m → ℤ) : Decidable (binaryGate n m A) := by
  unfold binaryGate; infer_instance

/-- The pairwise scan of `is_conflict_free` (lines 210-224): some column pair
`p < q` has a row with (1,1), a row with (0,1) and a row with (1,0). -/
def hasConflict (n m : ℕ) (A : Fin n → Fin m → ℤ) : Prop :=
  ∃ p q : Fin m, p < q ∧ (∃ r, A r p = 1 ∧ A r q = 1) ∧
    (∃ r, A r p = 0 ∧ A r q = 1) ∧ (∃ r, A r p = 1 ∧ A r q = 0)

instance (n m : ℕ) (A : Fin n → Fin m → ℤ) : Decidable (hasConflict n m A) := by
  unfold hasConflict; infer_instance

/-- `is_conflict_free` (lines 205-225): value gate, then the O(n·m²) scan of
all column pairs for the three-row conflict pattern. -/
def is_conflict_free (n m : ℕ) (A : Fin n → Fin m → ℤ) : Bool :=
  decide (binaryGate n m A) && ! decide (hasConflict n m A)

/-- Column `j` of the matrix, read top to bottom (row 0 first): the key by
which `_sort_bin` (lines 260-267) sorts, viewing each column as an n-digit
big-endian number with row 0 the most significant digit. -/
def colList (n m : ℕ) (A : Fin n → Fin m → ℤ) (j : Fin m) : List ℤ :=
  List.ofFn fun i => A i j

/-- Descending comparison of two columns as big-endian numbers, i.e.
lexicographic comparison entry by entry ("u ≥ v"). `_sort_bin` compares the
byte views of whole columns, which for {0,1} entries is this order. -/
def lexGe : List ℤ → List ℤ → Bool
  | [], [] => true
  | [], _ :: _ => false
  | _ :: _, [] => true
  | a :: as, b :: bs => if b < a then true else if a < b then false else lexGe as bs

/-- The column order used by `_sort_bin`: descending column values. -/
def colGE (u v : List ℤ) : Prop := lexGe u v = true

instance : DecidableRel colGE := fun u v => by unfold colGE; infer_instance

/-- `O_mtr, _ = _sort_bin(Ip)` (line 270): the columns of the matrix sorted in
descending order (`np.argsort(b_view.ravel())[::-1]`); `np.argsort` leaves the
relative order of equal columns unspecified, and the check below is proved
independent of it, so the sort is embedded as a deterministic stable sort. -/
def sortedCols (n m : ℕ) (A : Fin n → Fin m → ℤ) : List (List ℤ) :=
  List.insertionSort colGE (List.ofFn (colList n m A))

/-- Entry `O_mtr[i, j]` of the column-sorted matrix (0 out of range). -/
def Oent (n m : ℕ) (A : Fin n → Fin m → ℤ) (i j : ℕ) : ℤ :=
  ((sortedCols n m A).getD j []).getD i 0

/-- Column `j` of the sorted matrix (the empty list out of range). -/
def Ocol (n m : ℕ) (A : Fin n → Fin m → ℤ) (j : ℕ) : List ℤ :=
  (sortedCols n m A).getD j []

/-- The three-row conflict pattern between two columns, as lists. -/
def colPat (u v : List ℤ) : Prop :=
  (∃ r, u.getD r 0 = 1 ∧ v.getD r 0 = 1) ∧ (∃ r, u.getD r 0 = 0 ∧ v.getD r 0 = 1) ∧
    (∃ r, u.getD r 0 = 1 ∧ v.getD r 0 = 0)

/-- The conflict pattern between two columns of the sorted matrix. -/
def patternAt (n m : ℕ) (A : Fin n → Fin m → ℤ) (p q : ℕ) : Prop :=
  colPat (Ocol n m A p) (Ocol n m A q)

/-- The running `maxK` of the loop in lines 272-277 after scanning columns
`0, …, j-1` of one row: one plus the index of the last column `< j` holding a
1 in this row, or 0 if there is none. -/
def lastOnePlus (row : ℕ → ℤ) : ℕ → ℕ
  | 0 => 0
  | j + 1 => if row j = 1 then j + 1 else lastOnePlus row j

/-- `Lij[i, j]` (lines 271-277): where `O_mtr[i, j] = 1`, one plus the index
of the nearest earlier column equal to 1 in row `i` (0 if none); elsewhere 0. -/
def Lij (n m : ℕ) (A : Fin n → Fin m → ℤ) (i j : ℕ) : ℕ :=
  if Oent n m A i j = 1 then lastOnePlus (fun t => Oent n m A i t) j else 0

/-- `Lj = np.amax(Lij, axis=0)` (line 278): column-wise maximum of `Lij`. -/
def Lj (n m : ℕ) (A : Fin n → Fin m → ℤ) (j : ℕ) : ℕ :=
  Finset.univ.sup fun i : Fin n => Lij n m A i.1 j

/-- The final scan of `is_conflict_free_gusfield` (lines 279-284):
`Lij[i, j] == Lj[j]` at every position with `O_mtr[i, j] == 1`. -/
def gusfieldCheck (n m : ℕ) (A : Fin n → Fin m → ℤ) : Prop :=
  ∀ i : Fin n, ∀ j : Fin m, Oent n m A i.1 j.1 = 1 → Lij n m A i.1 j.1 = Lj n m A j.1

instance (n m : ℕ) (A : Fin n → Fin m → ℤ) : Decidable (gusfieldCheck n m A) := by
  unfold gusfieldCheck; infer_instance

/-- `is_conflict_free_gusfield` (lines 228-284): value gate, then Gusfield's
O(n·m) radix-sort test. -/
def is_conflict_free_gusfield (n m : ℕ) (A : Fin n → Fin m → ℤ) : Bool :=
  decide (binaryGate n m A) && decide (gusfieldCheck n m A)

/-- The 3×2 matrix [[1,1],[1,0],[0,1]] of the spec's scenario: the classic
conflict (forbidden) pattern. -/
def conflictMat : Fin 3 → Fin 2 → ℤ := ![![1, 1], ![1, 0], ![0, 1]]

/-! ## Genotype DataFrames and the scoring functions
(src/scphylo/tl/score/_ours.py) -/

/-- A pandas DataFrame as the scoring functions use it: ordered cell (row)
labels, ordered mutation (column) labels, and a positionally stored value
matrix addressed through the labels. The spec's data model demands unique
labels. -/
structure DFrame where
  rows : List String
  cols : List String
  val : ℕ → ℕ → ℤ

/-- Label-based lookup `df.loc[r, c]` (`df[c]` column access included). -/
def DFrame.entry (d : DFrame) (r c : String) : ℤ :=
  d.val (d.rows.indexOf r) (d.cols.indexOf c)

/-- `np.intersect1d(df_grnd.columns, df_sol.columns)`: the shared mutation
labels. `np.intersect1d` returns them sorted; they are kept here in the first
frame's order, and every use below is independent of the order. -/
def interCols (g s : DFrame) : List String :=
  g.cols.filter fun c => s.cols.contains c

/-- `np.intersect1d(df_grnd.index, df_sol.index)`: the shared cell labels. -/
def interRows (g s : DFrame) : List String :=
  g.rows.filter fun r => s.rows.contains r

/-- Modelled from the spec: `scp.logg.error` lives outside src/; by spec §4.3
and §7 an empty intersection "aborts the computation rather than returning a
degenerate score", so the abort outcome is embedded as `Option.none`, and an
uncaught `ZeroDivisionError` is embedded the same way. -/
def abortScore (q : Type) : Option q := none

/-- `gs` (lines 11-38): 1 minus the mean absolute difference over the shared
cells × shared mutations; empty shared mutations or cells abort. -/
def gs (g s : DFrame) : Option ℚ :=
  if interCols g s = [] ∨ interRows g s = [] then abortScore ℚ
  else some (1 -
    ((((interRows g s).map fun r =>
      ((interCols g s).map fun c => |g.entry r c - s.entry r c|).sum).sum : ℤ) : ℚ) /
      ((interRows g s).length * (interCols g s).length))

/-- `np.sum(M[:, i])`: sum of the column labelled `c`, over the frame's own
rows (`ad` and `dl` do not intersect the cell labels). -/
def colSum (d : DFrame) (c : String) : ℤ :=
  (d.rows.map fun r => d.entry r c).sum

/-- `np.sum(M[:, i] * M[:, j])`: the `cap` sums of `ad` and `dl`. -/
def capSum (d : DFrame) (c1 c2 : String) : ℤ :=
  (d.rows.map fun r => d.entry r c1 * d.entry r c2).sum

/-- The position pairs (i, j) with i ≤ j < k visited by the double loop
`for i in range(k): for j in range(i, k)`. -/
def loopPairs (k : ℕ) : Finset (ℕ × ℕ) :=
  (Finset.range k ×ˢ Finset.range k).filter fun p => p.1 ≤ p.2

/-- The column label at position `i` of the shared-mutation list. -/
def colAt (g s : DFrame) (i : ℕ) : String :=
  (interCols g s).getD i ""

/-- The AD-pair test of line 75: the two ground-truth columns meet in some
row and their column sums differ. -/
def adIsPair (g s : DFrame) (p : ℕ × ℕ) : Prop :=
  0 < capSum g (colAt g s p.1) (colAt g s p.2) ∧
    colSum g (colAt g s p.1) ≠ colSum g (colAt g s p.2)

instance (g s : DFrame) (p : ℕ × ℕ) : Decidable (adIsPair g s p) := by
  unfold adIsPair; infer_instance

/-- The error tests of lines 77-88 (the if/elif chain, flattened into the
equivalent disjunction). -/
def adIsError (g s : DFrame) (p : ℕ × ℕ) : Prop :=
  capSum s (colAt g s p.1) (colAt g s p.2) = 0 ∨
    (colSum g (colAt g s p.2) > colSum g (colAt g s p.1) ∧
      colSum s (colAt g s p.2) ≤ colSum s (colAt g s p.1)) ∨
    (colSum g (colAt g s p.1) > colSum g (colAt g s p.2) ∧
      colSum s (colAt g s p.1) ≤ colSum s (colAt g s p.2))

instance (g s : DFrame) (p : ℕ × ℕ) : Decidable (adIsError g s p) := by
  unfold adIsError; infer_instance

/-- `n_adpairs` of `ad`: the AD denominator. -/
def n_adpairs (g s : DFrame) : ℕ :=
  ((loopPairs (interCols g s).length).filter fun p => adIsPair g s p).card

/-- `len(error_pairs)` of `ad`: pairs counted into the denominator that fail
one of the error tests. -/
def n_aderrors (g s : DFrame) : ℕ :=
  ((loopPairs (interCols g s).length).filter fun p =>
    adIsPair g s p ∧ adIsError g s p).card

/-- `ad` (lines 41-89): empty intersection aborts; `n_adpairs = 0` raises
`ZeroDivisionError` at line 89 (no score); otherwise
`1 - len(error_pairs) / n_adpairs`. -/
def ad (g s : DFrame) : Option ℚ :=
  if interCols g s = [] then abortScore ℚ
  else if n_adpairs g s = 0 then abortScore ℚ
  else some (1 - (n_aderrors g s : ℚ) / (n_adpairs g s : ℚ))

/-- The ground-truth different-lineage test of lines 126-130: disjoint,
both-nonempty columns. -/
def dlIsPairG (g s : DFrame) (p : ℕ × ℕ) : Prop :=
  capSum g (colAt g s p.1) (colAt g s p.2) = 0 ∧
    colSum g (colAt g s p.1) ≠ 0 ∧ colSum g (colAt g s p.2) ≠ 0

instance (g s : DFrame) (p : ℕ × ℕ) : Decidable (dlIsPairG g s p) := by
  unfold dlIsPairG; infer_instance

/-- The candidate-side different-lineage test of lines 132-136. -/
def dlIsPairS (g s : DFrame) (p : ℕ × ℕ) : Prop :=
  capSum s (colAt g s p.1) (colAt g s p.2) = 0 ∧
    colSum s (colAt g s p.1) ≠ 0 ∧ colSum s (colAt g s p.2) ≠ 0

instance (g s : DFrame) (p : ℕ × ℕ) : Decidable (dlIsPairS g s p) := by
  unfold dlIsPairS; infer_instance

/-- `n_dlpairs1` of `dl`: the DL denominator. -/
def n_dlpairs1 (g s : DFrame) : ℕ :=
  ((loopPairs (interCols g s).length).filter fun p => dlIsPairG g s p).card

/-- `n_dlpairs2` of `dl`: ground-truth DL pairs preserved in the candidate. -/
def n_dlpairs2 (g s : DFrame) : ℕ :=
  ((loopPairs (interCols g s).length).filter fun p =>
    dlIsPairG g s p ∧ dlIsPairS g s p).card

/-- `dl` (lines 92-138): empty intersection aborts; `n_dlpairs1 = 0` raises
`ZeroDivisionError` at line 138; otherwise `n_dlpairs2 / n_dlpairs1`. -/
def dl (g s : DFrame) : Option ℚ :=
  if interCols g s = [] then abortScore ℚ
  else if n_dlpairs1 g s = 0 then abortScore ℚ
  else some ((n_dlpairs2 g s : ℚ) / (n_dlpairs1 g s : ℚ))

/-- `cc` (lines 141-172): empty intersection aborts; otherwise the metric is
unimplemented and the placeholder `None` is returned (`some ()` here). -/
def cc (g s : DFrame) : Option Unit :=
  if interCols g s = [] then abortScore Unit else some ()

/-- `df.columns.str.replace(":", "_").str.replace("=", "_")` applied to one
label (lines 210-211); both patterns are single characters. -/
def sanitizeLabel (c : String) : String :=
  ⟨c.data.map fun ch => if ch = ':' then '_' else if ch = '=' then '_' else ch⟩

/-- Lines 210-211 of `mltd` assign the sanitized column index back onto the
caller's DataFrame: row labels and values survive, column labels change. -/
def sanitizeDF (d : DFrame) : DFrame :=
  ⟨d.rows, d.cols.map sanitizeLabel, d.val⟩

/-- Modelled from the spec: `mltd` (lines 175-234) sanitizes both column
indexes in place, intersects the sanitized labels and aborts when the
intersection is empty; the remaining pipeline (`scp.ul.to_tree`, the
serialization and the external `run_mltd` call) is outside src/ and by spec
§4.5 produces the tool's result, embedded as `some ()`. -/
def mltd (g s : DFrame) : Option Unit :=
  if interCols (sanitizeDF g) (sanitizeDF s) = [] then abortScore Unit
  else some ()

/-- Shared mutations left after dropping the germline-absorbed mutations of
both trees: `np.setdiff1d(inter, np.union1d(grnd_germ, sol_germ))` of lines
265-270, counted. -/
def tptedShared (g s : DFrame) (grndGerm solGerm : List String) : ℕ :=
  ((interCols g s).filter fun c =>
    ¬ grndGerm.contains c ∧ ¬ solGerm.contains c).length

/-- Modelled from the spec: `tpted` (lines 237-294) aborts on an empty
intersection, then rebuilds both trees without the germline-absorbed
mutations and normalizes an externally computed edit distance. The two
`become_germline` sets come from `scp.ul.to_tree` and the distance `ed` from
the external APTED call, both outside src/; they enter as parameters, and
only the in-src arithmetic `1 - ed / (2 * (len(inter) + 1))` is embedded. -/
def tpted (g s : DFrame) (grndGerm solGerm : List String) (ed : ℕ) : Option ℚ :=
  if interCols g s = [] then abortScore ℚ
  else some (1 - (ed : ℚ) / (2 * ((tptedShared g s grndGerm solGerm : ℚ) + 1)))

/-! ### Post-call states of the caller's DataFrames

Each scoring function is paired with the state its two arguments are left in
after the call. `gs`, `ad`, `dl`, `cc` and `tpted` never assign into their
arguments; `mltd` reassigns both column indexes (lines 210-211). -/

def gs_post (g s : DFrame) : DFrame × DFrame := (g, s)

def ad_post (g s : DFrame) : DFrame × DFrame := (g, s)

def dl_post (g s : DFrame) : DFrame × DFrame := (g, s)

def cc_post (g s : DFrame) : DFrame × DFrame := (g, s)

def tpted_post (g s : DFrame) : DFrame × DFrame := (g, s)

def mltd_post (g s : DFrame) : DFrame × DFrame := (sanitizeDF g, sanitizeDF s)

/-! ### The spec's reading of the AD score (claim C5)

The following definitions are written from the spec's words, to be compared
with the embedded `ad`: supporting-cell sets, intersecting supports, and the
violation condition over unordered pairs of shared mutations. -/

/-- Every entry a frame can reach through its own labels is 0 or 1 (the
spec's GenotypeMatrix invariant). -/
def binaryDF (d : DFrame) : Prop :=
  ∀ r ∈ d.rows, ∀ c ∈ d.cols, d.entry r c = 0 ∨ d.entry r c = 1

instance (d : DFrame) : Decidable (binaryDF d) := by
  unfold binaryDF; infer_instance

/-- The supporting-cell set of a mutation column (spec: the cells whose
profile holds the mutation). -/
def supp (d : DFrame) (c : String) : List String :=
  d.rows.filter fun r => d.entry r c = 1

/-- The spec's "supporting-cell sets intersect". -/
def specMeets (d : DFrame) (c1 c2 : String) : Prop :=
  ∃ r ∈ d.rows, d.entry r c1 = 1 ∧ d.entry r c2 = 1

instance (d : DFrame) (c1 c2 : String) : Decidable (specMeets d c1 c2) := by
  unfold specMeets; infer_instance

/-- Unordered pairs of shared mutations, canonically the position pairs
(i, j) with i < j < k. -/
def strictPairs (k : ℕ) : Finset (ℕ × ℕ) :=
  (Finset.range k ×ˢ Finset.range k).filter fun p => p.1 < p.2

/-- The spec's ancestor-descendant pair: ground-truth supports intersect and
have unequal sizes. -/
def specADPair (g s : DFrame) (p : ℕ × ℕ) : Prop :=
  specMeets g (colAt g s p.1) (colAt g s p.2) ∧
    (supp g (colAt g s p.1)).length ≠ (supp g (colAt g s p.2)).length

instance (g s : DFrame) (p : ℕ × ℕ) : Decidable (specADPair g s p) := by
  unfold specADPair; infer_instance

/-- The spec's violated pair: candidate supports disjoint, or ground truth
orders the pair by set size and the ground-truth-larger side is
smaller-or-equal in the candidate. -/
def specADViol (g s : DFrame) (p : ℕ × ℕ) : Prop :=
  ¬ specMeets s (colAt g s p.1) (colAt g s p.2) ∨
    ((supp g (colAt g s p.2)).length > (supp g (colAt g s p.1)).length ∧
      (supp s (colAt g s p.2)).length ≤ (supp s (colAt g s p.1)).length) ∨
    ((supp g (colAt g s p.1)).length > (supp g (colAt g s p.2)).length ∧
      (supp s (colAt g s p.1)).length ≤ (supp s (colAt g s p.2)).length)

instance (g s : DFrame) (p : ℕ × ℕ) : Decidable (specADViol g s p) := by
  unfold specADViol; infer_instance

/-- The spec's AD denominator: ancestor-descendant pairs in ground truth. -/
def specADDen (g s : DFrame) : ℕ :=
  ((strictPairs (interCols g s).length).filter fun p => specADPair g s p).card

/-- The spec's violated-pair count. -/
def specADViolN (g s : DFrame) : ℕ :=
  ((strictPairs (interCols g s).length).filter fun p =>
    specADPair g s p ∧ specADViol g s p).card

/-- The spec's AD score: 1 − violated / total, not-applicable on a zero
denominator. -/
def specAD (g s : DFrame) : Option ℚ :=
  if specADDen g s = 0 then none
  else some (1 - (specADViolN g s : ℚ) / (specADDen g s : ℚ))

/-- `is_conflict_free` applied to a frame's own value matrix. -/
def isCF (d : DFrame) : Bool :=
  is_conflict_free d.rows.length d.cols.length fun i j => d.val i.1 j.1

/-! ### Properties of the column comparator -/

theorem lexGe_cons_iff {a b : ℤ} {as bs : List ℤ} :
    lexGe (a :: as) (b :: bs) = true ↔ b < a ∨ (a = b ∧ lexGe as bs = true) := by
  simp only [lexGe]
  split_ifs with h1 h2
  · simp [h1]
  · simp only [Bool.false_eq_true, false_iff]
    rintro (h | ⟨h, -⟩) <;> omega
  · have hab : a = b := by omega
    constructor
    · intro h
      exact Or.inr ⟨hab, h⟩
    · rintro (h | ⟨-, h⟩)
      · omega
      · exact h

theorem lexGe_total : ∀ u v : List ℤ, lexGe u v = true ∨ lexGe v u = true := by
  intro u
  induction u with
  | nil =>
    intro v
    cases v <;> simp [lexGe]
  | cons a as ih =>
    intro v
    cases v with
    | nil => simp [lexGe]
    | cons b bs =>
      rw [lexGe_cons_iff, lexGe_cons_iff]
      rcases lt_trichotomy a b with h | h | h
      · exact Or.inr (Or.inl h)
      · rcases ih bs with h' | h'
        · exact Or.inl (Or.inr ⟨h, h'⟩)
        · exact Or.inr (Or.inr ⟨h.symm, h'⟩)
      · exact Or.inl (Or.inl h)

theorem lexGe_trans :
    ∀ u v w : List ℤ, lexGe u v = true → lexGe v w = true → lexGe u w = true := by
  intro u
  induction u with
  | nil =>
    intro v w huv hvw
    cases v with
    | nil => exact hvw
    | cons b bs => simp [lexGe] at huv
  | cons a as ih =>
    intro v w huv hvw
    cases w with
    | nil => simp [lexGe]
    | cons c cs =>
      cases v with
      | nil => simp [lexGe] at hvw
      | cons b bs =>
        rw [lexGe_cons_iff] at huv hvw ⊢
        rcases huv with h | ⟨rfl, h⟩
        · rcases hvw with h' | ⟨rfl, h'⟩
          · exact Or.inl (by omega)
          · exact Or.inl h
        · rcases hvw with h' | ⟨rfl, h'⟩
          · exact Or.inl h'
          · exact Or.inr ⟨rfl, ih bs cs h h'⟩

/-- A column pointwise below-or-equal another, and strictly below somewhere,
is strictly smaller in the descending order used by `_sort_bin`. -/
theorem lexGe_eq_false_of_lt :
    ∀ u v : List ℤ, u.length = v.length → (∀ r, u.getD r 0 ≤ v.getD r 0) →
      (∃ r, u.getD r 0 < v.getD r 0) → lexGe u v = false := by
  intro u
  induction u with
  | nil =>
    intro v hlen _ hex
    rcases hex with ⟨r, hr⟩
    cases v with
    | nil => simp at hr
    | cons b bs => simp at hlen
  | cons a as ih =>
    intro v hlen hle hex
    cases v with
    | nil => simp at hlen
    | cons b bs =>
      have h0 : a ≤ b := by simpa using hle 0
      rcases lt_or_eq_of_le h0 with h | h
      · simp only [lexGe]
        rw [if_neg (by omega), if_pos h]
      · subst h
        have hstep : lexGe (a :: as) (a :: bs) = lexGe as bs := by
          simp [lexGe]
        rw [hstep]
        refine ih bs (by simpa using hlen) (fun r => by simpa using hle (r + 1)) ?_
        rcases hex with ⟨r, hr⟩
        cases r with
        | zero => simp at hr
        | succ r' => exact ⟨r', by simpa using hr⟩

/-! ### Properties of the sorted column list -/

theorem sortedCols_perm (n m : ℕ) (A : Fin n → Fin m → ℤ) :
    (sortedCols n m A).Perm (List.ofFn (colList n m A)) :=
  List.perm_insertionSort _ _

theorem sortedCols_sorted (n m : ℕ) (A : Fin n → Fin m → ℤ) :
    List.Sorted colGE (sortedCols n m A) := by
  haveI : IsTotal (List ℤ) colGE := ⟨fun u v => lexGe_total u v⟩
  haveI : IsTrans (List ℤ) colGE := ⟨fun u v w => lexGe_trans u v w⟩
  exact List.sorted_insertionSort _ _

theorem sortedCols_length (n m : ℕ) (A : Fin n → Fin m → ℤ) :
    (sortedCols n m A).length = m := by
  rw [(sortedCols_perm n m A).length_eq, List.length_ofFn]

theorem mem_sortedCols {n m : ℕ} {A : Fin n → Fin m → ℤ} {u : List ℤ} :
    u ∈ sortedCols n m A ↔ ∃ j, colList n m A j = u := by
  rw [(sortedCols_perm n m A).mem_iff, List.mem_ofFn]
  exact Set.mem_range

theorem colList_length (n m : ℕ) (A : Fin n → Fin m → ℤ) (j : Fin m) :
    (colList n m A j).length = n := by
  simp [colList]

theorem colList_getD {n m : ℕ} {A : Fin n → Fin m → ℤ} {j : Fin m} {i : ℕ}
    (hi : i < n) : (colList n m A j).getD i 0 = A ⟨i, hi⟩ j := by
  rw [List.getD_eq_getElem _ _ (by simpa [colList_length] using hi)]
  simp [colList]

theorem colList_getD_of_le {n m : ℕ} {A : Fin n → Fin m → ℤ} {j : Fin m} {i : ℕ}
    (hi : n ≤ i) : (colList n m A j).getD i 0 = 0 :=
  List.getD_eq_default _ _ (by simpa [colList_length] using hi)

/-! ### Entries of the sorted matrix -/

theorem sortedCols_mem_length {n m : ℕ} {A : Fin n → Fin m → ℤ} {u : List ℤ}
    (hu : u ∈ sortedCols n m A) : u.length = n := by
  rcases mem_sortedCols.mp hu with ⟨j, rfl⟩
  exact colList_length n m A j

theorem Oent_eq_Ocol (n m : ℕ) (A : Fin n → Fin m → ℤ) (i j : ℕ) :
    Oent n m A i j = (Ocol n m A j).getD i 0 := rfl

theorem Ocol_eq_get {n m : ℕ} {A : Fin n → Fin m → ℤ} {j : ℕ}
    (hjl : j < (sortedCols n m A).length) :
    Ocol n m A j = (sortedCols n m A).get ⟨j, hjl⟩ := by
  unfold Ocol
  rw [List.getD_eq_getElem (sortedCols n m A) [] hjl, List.get_eq_getElem]

theorem Ocol_mem {n m : ℕ} {A : Fin n → Fin m → ℤ} {j : ℕ} (hj : j < m) :
    Ocol n m A j ∈ sortedCols n m A := by
  have hjl : j < (sortedCols n m A).length := by rwa [sortedCols_length]
  rw [Ocol_eq_get hjl, List.get_eq_getElem]
  exact List.getElem_mem hjl

theorem Ocol_length {n m : ℕ} {A : Fin n → Fin m → ℤ} {j : ℕ} (hj : j < m) :
    (Ocol n m A j).length = n :=
  sortedCols_mem_length (Ocol_mem hj)

theorem Ocol_default {n m : ℕ} {A : Fin n → Fin m → ℤ} {j : ℕ} (hj : m ≤ j) :
    Ocol n m A j = [] :=
  List.getD_eq_default (sortedCols n m A) [] (by rwa [sortedCols_length])

theorem Oent_eq_zero_of_col {n m : ℕ} {A : Fin n → Fin m → ℤ} {i j : ℕ}
    (hj : m ≤ j) : Oent n m A i j = 0 := by
  rw [Oent_eq_Ocol, Ocol_default hj]
  rfl

theorem Oent_eq_zero_of_row {n m : ℕ} {A : Fin n → Fin m → ℤ} {i j : ℕ}
    (hi : n ≤ i) : Oent n m A i j = 0 := by
  rw [Oent_eq_Ocol]
  by_cases hj : j < m
  · exact List.getD_eq_default (Ocol n m A j) 0 (by rwa [Ocol_length hj])
  · rw [Ocol_default (by omega)]
    rfl

theorem Oent_one_bounds {n m : ℕ} {A : Fin n → Fin m → ℤ} {i j : ℕ}
    (h : Oent n m A i j = 1) : i < n ∧ j < m := by
  constructor
  · by_contra hi
    rw [Oent_eq_zero_of_row (by omega)] at h
    exact absurd h (by norm_num)
  · by_contra hj
    rw [Oent_eq_zero_of_col (by omega)] at h
    exact absurd h (by norm_num)

/-- Under the value gate, every entry of the sorted matrix is 0 or 1. -/
theorem Oent_binary {n m : ℕ} {A : Fin n → Fin m → ℤ}
    (hbin : ∀ i j, A i j = 0 ∨ A i j = 1) (i j : ℕ) :
    Oent n m A i j = 0 ∨ Oent n m A i j = 1 := by
  by_cases hj : j < m
  · rw [Oent_eq_Ocol]
    rcases mem_sortedCols.mp (Ocol_mem hj) with ⟨q, hq⟩
    rw [← hq]
    by_cases hi : i < n
    · rw [colList_getD hi]
      exact hbin _ _
    · rw [colList_getD_of_le (by omega)]
      exact Or.inl rfl
  · rw [Oent_eq_zero_of_col (by omega)]
    exact Or.inl rfl

/-! ### The scan value `maxK` -/

theorem lastOnePlus_succ (row : ℕ → ℤ) (k : ℕ) :
    lastOnePlus row (k + 1) = if row k = 1 then k + 1 else lastOnePlus row k := rfl

theorem lastOnePlus_le (row : ℕ → ℤ) (k : ℕ) : lastOnePlus row k ≤ k := by
  induction k with
  | zero => simp [lastOnePlus]
  | succ k ih =>
    rw [lastOnePlus_succ]
    split_ifs <;> omega

theorem lastOnePlus_mono (row : ℕ → ℤ) (k : ℕ) :
    lastOnePlus row k ≤ lastOnePlus row (k + 1) := by
  rw [lastOnePlus_succ]
  split_ifs
  · have := lastOnePlus_le row k
    omega
  · exact le_rfl

theorem lastOnePlus_ge (row : ℕ → ℤ) {j k : ℕ} (h1 : row j = 1) (h2 : j < k) :
    j + 1 ≤ lastOnePlus row k := by
  induction k with
  | zero => omega
  | succ k ih =>
    rcases Nat.lt_succ_iff_lt_or_eq.mp h2 with h | rfl
    · exact le_trans (ih h) (lastOnePlus_mono row k)
    · rw [lastOnePlus_succ, if_pos h1]

/-- What `maxK` is after the scan: zero and no earlier 1, or `c + 1` with `c`
the position of the last 1 strictly before the current column. -/
theorem lastOnePlus_spec (row : ℕ → ℤ) (k : ℕ) :
    (lastOnePlus row k = 0 ∧ ∀ t, t < k → row t ≠ 1) ∨
      (∃ c, lastOnePlus row k = c + 1 ∧ c < k ∧ row c = 1 ∧
        ∀ t, c < t → t < k → row t ≠ 1) := by
  induction k with
  | zero => exact Or.inl ⟨rfl, by omega⟩
  | succ k ih =>
    by_cases hk : row k = 1
    · refine Or.inr ⟨k, ?_, by omega, hk, by omega⟩
      rw [lastOnePlus_succ, if_pos hk]
    · have hstep : lastOnePlus row (k + 1) = lastOnePlus row k := by
        rw [lastOnePlus_succ, if_neg hk]
      rcases ih with ⟨h0, hall⟩ | ⟨c, hc, hck, hrow, hlast⟩
      · refine Or.inl ⟨by rwa [hstep], fun t ht => ?_⟩
        rcases Nat.lt_succ_iff_lt_or_eq.mp ht with h | rfl
        · exact hall t h
        · exact hk
      · refine Or.inr ⟨c, by rwa [hstep], by omega, hrow, fun t ht1 ht2 => ?_⟩
        rcases Nat.lt_succ_iff_lt_or_eq.mp ht2 with h | rfl
        · exact hlast t ht1 h
        · exact hk

/-! ### Transfer of the conflict pattern to the sorted matrix

The conflict pattern is a property of an unordered pair of columns, so it is
preserved by the column sort (a permutation of the columns). -/

theorem colPat_symm {u v : List ℤ} (h : colPat u v) : colPat v u := by
  obtain ⟨⟨r1, h1⟩, ⟨r2, h2⟩, ⟨r3, h3⟩⟩ := h
  exact ⟨⟨r1, h1.2, h1.1⟩, ⟨r3, h3.2, h3.1⟩, ⟨r2, h2.2, h2.1⟩⟩

theorem colPat_ne {u v : List ℤ} (h : colPat u v) : u ≠ v := by
  rintro rfl
  obtain ⟨-, ⟨r, h0, h1⟩, -⟩ := h
  rw [h0] at h1
  exact absurd h1 (by norm_num)

theorem colList_getD_fin {n m : ℕ} {A : Fin n → Fin m → ℤ} (r : Fin n) (c : Fin m) :
    (colList n m A c).getD r.1 0 = A r c := by
  rw [colList_getD r.2]

/-- The list-level pattern between two original columns, read back as rows. -/
theorem colPat_colList_iff {n m : ℕ} {A : Fin n → Fin m → ℤ} {c d : Fin m} :
    colPat (colList n m A c) (colList n m A d) ↔
      (∃ r : Fin n, A r c = 1 ∧ A r d = 1) ∧ (∃ r : Fin n, A r c = 0 ∧ A r d = 1) ∧
        (∃ r : Fin n, A r c = 1 ∧ A r d = 0) := by
  have hbound : ∀ {e : Fin m} {r : ℕ}, (colList n m A e).getD r 0 = 1 → r < n := by
    intro e r h
    by_contra hr
    rw [colList_getD_of_le (by omega)] at h
    exact absurd h (by norm_num)
  constructor
  · rintro ⟨⟨r1, h1⟩, ⟨r2, h2⟩, ⟨r3, h3⟩⟩
    have hr1 : r1 < n := hbound h1.1
    have hr2 : r2 < n := hbound h2.2
    have hr3 : r3 < n := hbound h3.1
    refine ⟨⟨⟨r1, hr1⟩, ?_, ?_⟩, ⟨⟨r2, hr2⟩, ?_, ?_⟩, ⟨⟨r3, hr3⟩, ?_, ?_⟩⟩
    · exact (colList_getD_fin ⟨r1, hr1⟩ c).symm.trans h1.1
    · exact (colList_getD_fin ⟨r1, hr1⟩ d).symm.trans h1.2
    · exact (colList_getD_fin ⟨r2, hr2⟩ c).symm.trans h2.1
    · exact (colList_getD_fin ⟨r2, hr2⟩ d).symm.trans h2.2
    · exact (colList_getD_fin ⟨r3, hr3⟩ c).symm.trans h3.1
    · exact (colList_getD_fin ⟨r3, hr3⟩ d).symm.trans h3.2
  · rintro ⟨⟨r1, h1⟩, ⟨r2, h2⟩, ⟨r3, h3⟩⟩
    refine ⟨⟨r1.1, ?_, ?_⟩, ⟨r2.1, ?_, ?_⟩, ⟨r3.1, ?_, ?_⟩⟩
    · exact (colList_getD_fin r1 c).trans h1.1
    · exact (colList_getD_fin r1 d).trans h1.2
    · exact (colList_getD_fin r2 c).trans h2.1
    · exact (colList_getD_fin r2 d).trans h2.2
    · exact (colList_getD_fin r3 c).trans h3.1
    · exact (colList_getD_fin r3 d).trans h3.2

theorem hasConflict_of_colPat {n m : ℕ} {A : Fin n → Fin m → ℤ} {c d : Fin m}
    (hne : c ≠ d) (h : colPat (colList n m A c) (colList n m A d)) :
    hasConflict n m A := by
  rcases lt_or_gt_of_ne hne with hlt | hgt
  · obtain ⟨h11, h01, h10⟩ := colPat_colList_iff.mp h
    exact ⟨c, d, hlt, h11, h01, h10⟩
  · obtain ⟨h11, h01, h10⟩ := colPat_colList_iff.mp (colPat_symm h)
    exact ⟨d, c, hgt, h11, h01, h10⟩

/-- Existence of a conflicting column pair is a property of the multiset of
columns, hence invariant under the sort. -/
theorem hasConflict_iff_patternAt (n m : ℕ) (A : Fin n → Fin m → ℤ) :
    hasConflict n m A ↔ ∃ p q : ℕ, p ≠ q ∧ patternAt n m A p q := by
  constructor
  · rintro ⟨p, q, hpq, h11, h01, h10⟩
    have hpat : colPat (colList n m A p) (colList n m A q) :=
      colPat_colList_iff.mpr ⟨h11, h01, h10⟩
    have hup : colList n m A p ∈ sortedCols n m A :=
      mem_sortedCols.mpr ⟨p, rfl⟩
    have huq : colList n m A q ∈ sortedCols n m A :=
      mem_sortedCols.mpr ⟨q, rfl⟩
    rcases List.mem_iff_getElem.mp hup with ⟨jp, hjp, hgp⟩
    rcases List.mem_iff_getElem.mp huq with ⟨jq, hjq, hgq⟩
    refine ⟨jp, jq, ?_, ?_⟩
    · rintro rfl
      exact colPat_ne hpat (hgp.symm.trans hgq)
    · unfold patternAt
      rw [Ocol_eq_get hjp, Ocol_eq_get hjq, List.get_eq_getElem, List.get_eq_getElem,
        hgp, hgq]
      exact hpat
  · rintro ⟨p, q, hpq, hpat⟩
    have hcopy : colPat (Ocol n m A p) (Ocol n m A q) := hpat
    obtain ⟨⟨r1, h1⟩, ⟨r2, h2⟩, -⟩ := hcopy
    have hp : p < m := (Oent_one_bounds (show Oent n m A r1 p = 1 from h1.1)).2
    have hq : q < m := (Oent_one_bounds (show Oent n m A r2 q = 1 from h2.2)).2
    rcases mem_sortedCols.mp (Ocol_mem hp) with ⟨cp, hcp⟩
    rcases mem_sortedCols.mp (Ocol_mem hq) with ⟨cq, hcq⟩
    have hpat2 : colPat (colList n m A cp) (colList n m A cq) := by
      rw [hcp, hcq]
      exact hpat
    have hne : cp ≠ cq := by
      rintro rfl
      exact colPat_ne hpat2 rfl
    exact hasConflict_of_colPat hne hpat2

/-! ### Soundness: a passing check forces nested column supports -/

/-- If Gusfield's check passes then, in the sorted matrix, whenever an earlier
column `j` and a later column `k` share a supporting row, the support of `k`
is contained in the support of `j` (strong induction on `k`, descending
through the common `L[j]` pointer). -/
theorem check_laminar {n m : ℕ} {A : Fin n → Fin m → ℤ}
    (hchk : gusfieldCheck n m A) :
    ∀ k j : ℕ, j < k → (∃ i, Oent n m A i j = 1 ∧ Oent n m A i k = 1) →
      ∀ i, Oent n m A i k = 1 → Oent n m A i j = 1 := by
  intro k
  induction k using Nat.strong_induction_on with
  | _ k IH =>
    rintro j hjk ⟨i0, hi0j, hi0k⟩ i hik
    obtain ⟨hi0n, hkm⟩ := Oent_one_bounds hi0k
    obtain ⟨hin, -⟩ := Oent_one_bounds hik
    have hchk0 := hchk ⟨i0, hi0n⟩ ⟨k, hkm⟩ hi0k
    have hchki := hchk ⟨i, hin⟩ ⟨k, hkm⟩ hik
    rw [Lij, if_pos hi0k] at hchk0
    rw [Lij, if_pos hik] at hchki
    have hge : j + 1 ≤ lastOnePlus (fun t => Oent n m A i0 t) k :=
      lastOnePlus_ge _ hi0j hjk
    rcases lastOnePlus_spec (fun t => Oent n m A i0 t) k with ⟨h0, -⟩ | ⟨c, hc, hck, hc1, -⟩
    · omega
    · -- the common pointer column c carries a 1 in every supporting row of k
      have hcj : j ≤ c := by omega
      have hic : Oent n m A i c = 1 := by
        rcases lastOnePlus_spec (fun t => Oent n m A i t) k with ⟨h0i, -⟩ | ⟨ci, hci, -, hci1, -⟩
        · rw [h0i] at hchki
          rw [hc] at hchk0
          omega
        · have : ci = c := by
            rw [hci] at hchki
            rw [hc] at hchk0
            omega
          rwa [this] at hci1
      rcases Nat.lt_or_ge j c with hlt | hge2
      · exact IH c hck j hlt ⟨i0, hi0j, hc1⟩ i hic
      · have : j = c := by omega
        rwa [this]

/-- A passing check rules out the conflict pattern between sorted columns. -/
theorem check_no_patternAt {n m : ℕ} {A : Fin n → Fin m → ℤ}
    (hchk : gusfieldCheck n m A) :
    ¬ ∃ p q : ℕ, p ≠ q ∧ patternAt n m A p q := by
  rintro ⟨p, q, hpq, hpat⟩
  -- orient the pair to earlier-vs-later and contradict containment
  rcases Nat.lt_or_ge p q with hlt | hge
  · obtain ⟨⟨r1, h11⟩, ⟨r2, h01⟩, -⟩ := hpat
    have := check_laminar hchk q p hlt
      ⟨r1, show Oent n m A r1 p = 1 from h11.1, show Oent n m A r1 q = 1 from h11.2⟩
      r2 (show Oent n m A r2 q = 1 from h01.2)
    have h0 : Oent n m A r2 p = 0 := h01.1
    rw [this] at h0
    exact absurd h0 (by norm_num)
  · have hlt : q < p := by omega
    obtain ⟨⟨r1, h11⟩, -, ⟨r3, h10⟩⟩ := hpat
    have := check_laminar hchk p q hlt
      ⟨r1, show Oent n m A r1 q = 1 from h11.2, show Oent n m A r1 p = 1 from h11.1⟩
      r3 (show Oent n m A r3 p = 1 from h10.1)
    have h0 : Oent n m A r3 q = 0 := h10.2
    rw [this] at h0
    exact absurd h0 (by norm_num)

/-! ### Completeness: a conflict-free matrix passes the check -/

theorem sortedCols_rel {n m : ℕ} {A : Fin n → Fin m → ℤ} {c j : ℕ}
    (hcj : c < j) (hj : j < m) :
    lexGe (Ocol n m A c) (Ocol n m A j) = true := by
  have hjl : j < (sortedCols n m A).length := by rwa [sortedCols_length]
  have hcl : c < (sortedCols n m A).length := by omega
  have hrel := List.Sorted.rel_get_of_lt (sortedCols_sorted n m A)
    (show (⟨c, hcl⟩ : Fin (sortedCols n m A).length) < ⟨j, hjl⟩ from hcj)
  rw [Ocol_eq_get hcl, Ocol_eq_get hjl]
  exact hrel

/-- If no two sorted columns show the conflict pattern then the check passes:
within one column every supporting row sees the same nearest-earlier column. -/
theorem no_pattern_check {n m : ℕ} {A : Fin n → Fin m → ℤ}
    (hbin : ∀ i j, A i j = 0 ∨ A i j = 1)
    (hnp : ¬ ∃ p q : ℕ, p ≠ q ∧ patternAt n m A p q) : gusfieldCheck n m A := by
  intro i j hOij
  have hOb : ∀ r t : ℕ, Oent n m A r t = 0 ∨ Oent n m A r t = 1 := Oent_binary hbin
  -- row i attains the column maximum of Lij
  have key : ∀ i2 : Fin n, Lij n m A i2.1 j.1 ≤ Lij n m A i.1 j.1 := by
    intro i2
    by_cases h2 : Oent n m A i2.1 j.1 = 1
    · rw [Lij, if_pos h2]
      rcases lastOnePlus_spec (fun t => Oent n m A i2.1 t) j.1 with ⟨h0, -⟩ | ⟨c, hc, hcj, hc1, -⟩
      · rw [h0]
        exact Nat.zero_le _
      · rw [hc]
        have hjm : j.1 < m := j.2
        have hnp2 : ¬ patternAt n m A c j.1 := fun hp => hnp ⟨c, j.1, by omega, hp⟩
        -- columns c and j intersect (row i2), so one of the two one-sided
        -- patterns is missing
        have hsplit : (∀ r, ¬ (Oent n m A r c = 0 ∧ Oent n m A r j.1 = 1)) ∨
            (∀ r, ¬ (Oent n m A r c = 1 ∧ Oent n m A r j.1 = 0)) := by
          by_contra hcon
          push_neg at hcon
          obtain ⟨⟨r2, h2a, h2b⟩, ⟨r3, h3a, h3b⟩⟩ := hcon
          exact hnp2 ⟨⟨i2.1, hc1, h2⟩, ⟨r2, h2a, h2b⟩, ⟨r3, h3a, h3b⟩⟩
        -- in either live case, row i also holds a 1 in column c
        have hic : Oent n m A i.1 c = 1 → c + 1 ≤ Lij n m A i.1 j.1 := by
          intro h1
          rw [Lij, if_pos hOij]
          exact lastOnePlus_ge _ h1 hcj
        rcases hsplit with hno01 | hno10
        · rcases hOb i.1 c with h0 | h1
          · exact absurd ⟨h0, hOij⟩ (hno01 i.1)
          · exact hic h1
        · by_cases hstrict : ∃ r0, Oent n m A r0 j.1 = 1 ∧ Oent n m A r0 c = 0
          · -- column c would be pointwise below column j: impossible, c is sorted first
            exfalso
            obtain ⟨r0, hr0j, hr0c⟩ := hstrict
            have hfalse : lexGe (Ocol n m A c) (Ocol n m A j.1) = false := by
              refine lexGe_eq_false_of_lt _ _ ?_ ?_ ⟨r0, ?_⟩
              · rw [Ocol_length (by omega), Ocol_length hjm]
              · intro r
                rw [← Oent_eq_Ocol, ← Oent_eq_Ocol]
                rcases hOb r c with h0 | h1
                · rcases hOb r j.1 with h0j | h1j <;> omega
                · rcases hOb r j.1 with h0j | h1j
                  · exact absurd ⟨h1, h0j⟩ (hno10 r)
                  · omega
              · rw [← Oent_eq_Ocol, ← Oent_eq_Ocol, hr0c, hr0j]
                norm_num
            rw [sortedCols_rel hcj hjm] at hfalse
            exact absurd hfalse (by norm_num)
          · push_neg at hstrict
            rcases hOb i.1 c with h0 | h1
            · exact absurd h0 (hstrict i.1 hOij)
            · exact hic h1
    · rw [Lij, if_neg h2]
      exact Nat.zero_le _
  have hle : Lj n m A j.1 ≤ Lij n m A i.1 j.1 := Finset.sup_le fun i2 _ => key i2
  have hge : Lij n m A i.1 j.1 ≤ Lj n m A j.1 :=
    Finset.le_sup (f := fun i2 : Fin n => Lij n m A i2.1 j.1) (Finset.mem_univ i)
  omega

/-! ### The two checkers agree -/

/-- Equivalence of the pairwise scan and Gusfield's test, on every input. -/
theorem naive_eq_gusfield (n m : ℕ) (A : Fin n → Fin m → ℤ) :
    is_conflict_free n m A = is_conflict_free_gusfield n m A := by
  unfold is_conflict_free is_conflict_free_gusfield
  by_cases hg : binaryGate n m A
  · have hiff : (¬ hasConflict n m A) ↔ gusfieldCheck n m A := by
      constructor
      · intro hnc
        exact no_pattern_check hg.1
          fun hp => hnc ((hasConflict_iff_patternAt n m A).mpr hp)
      · intro hchk hc
        exact check_no_patternAt hchk ((hasConflict_iff_patternAt n m A).mp hc)
    rw [decide_eq_true hg]
    simp only [Bool.true_and]
    rw [← decide_not]
    exact decide_eq_decide.mpr hiff
  · rw [decide_eq_false hg]
    simp

/-! ### Permutation invariance -/

/-- The pairwise scan condition, phrased over unordered distinct pairs. -/
theorem hasConflict_iff_ne (n m : ℕ) (A : Fin n → Fin m → ℤ) :
    hasConflict n m A ↔ ∃ p q : Fin m, p ≠ q ∧ (∃ r, A r p = 1 ∧ A r q = 1) ∧
      (∃ r, A r p = 0 ∧ A r q = 1) ∧ (∃ r, A r p = 1 ∧ A r q = 0) := by
  constructor
  · rintro ⟨p, q, hpq, h11, h01, h10⟩
    exact ⟨p, q, ne_of_lt hpq, h11, h01, h10⟩
  · rintro ⟨p, q, hpq, ⟨r1, h11⟩, ⟨r2, h01⟩, ⟨r3, h10⟩⟩
    rcases lt_or_gt_of_ne hpq with hlt | hgt
    · exact ⟨p, q, hlt, ⟨r1, h11⟩, ⟨r2, h01⟩, ⟨r3, h10⟩⟩
    · exact ⟨q, p, hgt, ⟨r1, h11.2, h11.1⟩, ⟨r3, h10.2, h10.1⟩, ⟨r2, h01.2, h01.1⟩⟩

theorem binaryGate_perm (n m : ℕ) (A : Fin n → Fin m → ℤ)
    (ρ : Equiv.Perm (Fin n)) (σ : Equiv.Perm (Fin m)) :
    binaryGate n m (fun i j => A (ρ i) (σ j)) ↔ binaryGate n m A := by
  unfold binaryGate
  constructor
  · rintro ⟨hb, ⟨i0, j0, h0⟩, ⟨i1, j1, h1⟩⟩
    refine ⟨fun i j => ?_, ⟨ρ i0, σ j0, h0⟩, ⟨ρ i1, σ j1, h1⟩⟩
    have := hb (ρ.symm i) (σ.symm j)
    simpa using this
  · rintro ⟨hb, ⟨i0, j0, h0⟩, ⟨i1, j1, h1⟩⟩
    exact ⟨fun i j => hb _ _, ⟨ρ.symm i0, σ.symm j0, by simpa⟩,
      ⟨ρ.symm i1, σ.symm j1, by simpa⟩⟩

theorem hasConflict_perm (n m : ℕ) (A : Fin n → Fin m → ℤ)
    (ρ : Equiv.Perm (Fin n)) (σ : Equiv.Perm (Fin m)) :
    hasConflict n m (fun i j => A (ρ i) (σ j)) ↔ hasConflict n m A := by
  rw [hasConflict_iff_ne, hasConflict_iff_ne]
  constructor
  · rintro ⟨p, q, hpq, ⟨r1, h11⟩, ⟨r2, h01⟩, ⟨r3, h10⟩⟩
    exact ⟨σ p, σ q, fun h => hpq (σ.injective h), ⟨ρ r1, h11⟩, ⟨ρ r2, h01⟩,
      ⟨ρ r3, h10⟩⟩
  · rintro ⟨p, q, hpq, ⟨r1, h11⟩, ⟨r2, h01⟩, ⟨r3, h10⟩⟩
    exact ⟨σ.symm p, σ.symm q, fun h => hpq (σ.symm.injective h),
      ⟨ρ.symm r1, by simpa⟩, ⟨ρ.symm r2, by simpa⟩, ⟨ρ.symm r3, by simpa⟩⟩

/-! ## Claims C1-C4 -/

/-- C1: a binary matrix holding two columns p, q with some row (1,1), some row
(1,0) and some row (0,1) is rejected by `is_conflict_free_gusfield`. -/
theorem claim1_conflict_pattern_rejected (n m : ℕ) (A : Fin n → Fin m → ℤ)
    (hbin : ∀ i j, A i j = 0 ∨ A i j = 1) (p q : Fin m) (hpq : p ≠ q)
    (h11 : ∃ r, A r p = 1 ∧ A r q = 1) (h10 : ∃ r, A r p = 1 ∧ A r q = 0)
    (h01 : ∃ r, A r p = 0 ∧ A r q = 1) :
    is_conflict_free_gusfield n m A = false := by
  rw [← naive_eq_gusfield]
  unfold is_conflict_free
  have hc : hasConflict n m A :=
    (hasConflict_iff_ne n m A).mpr ⟨p, q, hpq, h11, h01, h10⟩
  rw [decide_eq_true hc]
  simp

/-- C1 witness: the 3×2 matrix [[1,1],[1,0],[0,1]] of the spec's scenario is
rejected. -/
theorem claim1_witness : is_conflict_free_gusfield 3 2 conflictMat = false :=
  claim1_conflict_pattern_rejected 3 2 conflictMat (by decide) 0 1 (by decide)
    ⟨0, by decide⟩ ⟨1, by decide⟩ ⟨2, by decide⟩

/-- C2 counterexample: the claim predicts `True` on every all-zero matrix, but
on the 1×1 all-zero matrix the checker returns `False` (the value gate
`np.array_equal(np.unique(I_mtr), [0, 1])` fails when no 1 is present). -/
theorem claim2_counterexample :
    is_conflict_free_gusfield 1 1 (fun _ _ => 0) = false := by decide

/-- C2 (amended): `is_conflict_free_gusfield` returns `False` on every empty
matrix (0 rows or 0 columns) and on every all-zero matrix, because the value
gate demands that the set of occurring values be exactly {0, 1}. -/
theorem claim2_empty_or_zero_rejected (n m : ℕ) (A : Fin n → Fin m → ℤ)
    (h : n = 0 ∨ m = 0 ∨ ∀ i j, A i j = 0) :
    is_conflict_free_gusfield n m A = false := by
  have hno1 : ¬ ∃ i j, A i j = 1 := by
    rcases h with h | h | h
    · rintro ⟨i, -, -⟩
      subst h
      exact i.elim0
    · rintro ⟨-, j, -⟩
      subst h
      exact j.elim0
    · rintro ⟨i, j, hij⟩
      rw [h i j] at hij
      exact absurd hij (by norm_num)
  have hgate : ¬ binaryGate n m A := fun hg => hno1 hg.2.2
  unfold is_conflict_free_gusfield
  rw [decide_eq_false hgate]
  simp

/-- C2 witness: the 2×2 all-zero matrix is rejected. -/
theorem claim2_witness : is_conflict_free_gusfield 2 2 (fun _ _ => 0) = false :=
  claim2_empty_or_zero_rejected 2 2 (fun _ _ => 0) (Or.inr (Or.inr fun _ _ => rfl))

/-- C3: on every input matrix the naive pairwise checker `is_conflict_free`
and `is_conflict_free_gusfield` return the same boolean. -/
theorem claim3_naive_eq_gusfield (n m : ℕ) (A : Fin n → Fin m → ℤ) :
    is_conflict_free n m A = is_conflict_free_gusfield n m A :=
  naive_eq_gusfield n m A

/-- C4: `is_conflict_free_gusfield` is invariant under any row permutation and
any column permutation of its input. -/
theorem claim4_perm_invariant (n m : ℕ) (A : Fin n → Fin m → ℤ)
    (ρ : Equiv.Perm (Fin n)) (σ : Equiv.Perm (Fin m)) :
    is_conflict_free_gusfield n m (fun i j => A (ρ i) (σ j)) =
      is_conflict_free_gusfield n m A := by
  rw [← naive_eq_gusfield, ← naive_eq_gusfield]
  unfold is_conflict_free
  rw [decide_eq_decide.mpr (binaryGate_perm n m A ρ σ),
    decide_eq_decide.mpr (hasConflict_perm n m A ρ σ)]

/-! ### Sums of binary columns count supporting cells -/

theorem contains_iff_mem {l : List String} {a : String} :
    l.contains a = true ↔ a ∈ l := List.elem_iff

theorem mem_interCols {g s : DFrame} {c : String} :
    c ∈ interCols g s ↔ c ∈ g.cols ∧ c ∈ s.cols := by
  unfold interCols
  rw [List.mem_filter]
  exact and_congr_right fun _ => contains_iff_mem

theorem colAt_mem {g s : DFrame} {i : ℕ} (hi : i < (interCols g s).length) :
    colAt g s i ∈ interCols g s := by
  unfold colAt
  rw [List.getD_eq_getElem (interCols g s) "" hi]
  exact List.getElem_mem hi

theorem list_sum_eq_count (f : String → ℤ) :
    ∀ L : List String, (∀ r ∈ L, f r = 0 ∨ f r = 1) →
      (L.map f).sum = ((L.filter fun r => f r = 1).length : ℤ) := by
  intro L
  induction L with
  | nil =>
    intro _
    simp
  | cons a L ih =>
    intro hf
    have ha := hf a (List.mem_cons_self a L)
    have hL := ih fun r hr => hf r (List.mem_cons_of_mem a hr)
    rw [List.map_cons, List.sum_cons, List.filter_cons, hL]
    rcases ha with h | h
    · rw [h]
      simp
    · rw [h]
      simp only [decide_eq_true_eq, if_pos, List.length_cons]
      push_cast
      ring

theorem colSum_eq_supp {d : DFrame} {c : String}
    (hb : ∀ r ∈ d.rows, d.entry r c = 0 ∨ d.entry r c = 1) :
    colSum d c = ((supp d c).length : ℤ) :=
  list_sum_eq_count (fun r => d.entry r c) d.rows hb

theorem capSum_eq_count {d : DFrame} {c1 c2 : String}
    (hb1 : ∀ r ∈ d.rows, d.entry r c1 = 0 ∨ d.entry r c1 = 1)
    (hb2 : ∀ r ∈ d.rows, d.entry r c2 = 0 ∨ d.entry r c2 = 1) :
    capSum d c1 c2 =
      ((d.rows.filter fun r =>
        d.entry r c1 = 1 ∧ d.entry r c2 = 1).length : ℤ) := by
  have hmul : ∀ r ∈ d.rows,
      d.entry r c1 * d.entry r c2 = 0 ∨ d.entry r c1 * d.entry r c2 = 1 := by
    intro r hr
    rcases hb1 r hr with h1 | h1 <;> rcases hb2 r hr with h2 | h2 <;>
      rw [h1, h2] <;> norm_num
  have hsum := list_sum_eq_count (fun r => d.entry r c1 * d.entry r c2) d.rows hmul
  rw [capSum, hsum]
  have hfil : (d.rows.filter fun r => d.entry r c1 * d.entry r c2 = 1) =
      (d.rows.filter fun r => d.entry r c1 = 1 ∧ d.entry r c2 = 1) := by
    refine List.filter_congr fun r hr => ?_
    rcases hb1 r hr with h1 | h1 <;> rcases hb2 r hr with h2 | h2 <;>
      simp [h1, h2]
  rw [hfil]

theorem capSum_pos_iff {d : DFrame} {c1 c2 : String}
    (hb1 : ∀ r ∈ d.rows, d.entry r c1 = 0 ∨ d.entry r c1 = 1)
    (hb2 : ∀ r ∈ d.rows, d.entry r c2 = 0 ∨ d.entry r c2 = 1) :
    0 < capSum d c1 c2 ↔ specMeets d c1 c2 := by
  rw [capSum_eq_count hb1 hb2, Int.natCast_pos, List.length_pos_iff_exists_mem]
  unfold specMeets
  constructor
  · rintro ⟨r, hr⟩
    rw [List.mem_filter] at hr
    refine ⟨r, hr.1, ?_⟩
    simpa using hr.2
  · rintro ⟨r, hr, h⟩
    exact ⟨r, List.mem_filter.mpr ⟨hr, by simpa using h⟩⟩

theorem capSum_zero_iff {d : DFrame} {c1 c2 : String}
    (hb1 : ∀ r ∈ d.rows, d.entry r c1 = 0 ∨ d.entry r c1 = 1)
    (hb2 : ∀ r ∈ d.rows, d.entry r c2 = 0 ∨ d.entry r c2 = 1) :
    capSum d c1 c2 = 0 ↔ ¬ specMeets d c1 c2 := by
  have hnn : 0 ≤ capSum d c1 c2 := by
    rw [capSum_eq_count hb1 hb2]
    exact Int.natCast_nonneg _
  constructor
  · intro h hm
    have := (capSum_pos_iff hb1 hb2).mpr hm
    omega
  · intro hm
    have : ¬ 0 < capSum d c1 c2 := fun hp => hm ((capSum_pos_iff hb1 hb2).mp hp)
    omega

theorem binary_col_first {g s : DFrame} (hb : binaryDF g) {c : String}
    (hc : c ∈ interCols g s) :
    ∀ r ∈ g.rows, g.entry r c = 0 ∨ g.entry r c = 1 :=
  fun r hr => hb r hr c (mem_interCols.mp hc).1

theorem binary_col_second {g s : DFrame} (hb : binaryDF s) {c : String}
    (hc : c ∈ interCols g s) :
    ∀ r ∈ s.rows, s.entry r c = 0 ∨ s.entry r c = 1 :=
  fun r hr => hb r hr c (mem_interCols.mp hc).2

/-! ### The loop predicates match the spec predicates on binary frames -/

theorem adIsPair_iff_spec {g s : DFrame} (hbg : binaryDF g) {p : ℕ × ℕ}
    (h1 : p.1 < (interCols g s).length) (h2 : p.2 < (interCols g s).length) :
    adIsPair g s p ↔ specADPair g s p := by
  have hb1 := binary_col_first hbg (colAt_mem h1)
  have hb2 := binary_col_first hbg (colAt_mem h2)
  unfold adIsPair specADPair
  rw [capSum_pos_iff hb1 hb2, colSum_eq_supp hb1, colSum_eq_supp hb2,
    ne_eq, Int.natCast_inj]

theorem adIsError_iff_spec {g s : DFrame} (hbg : binaryDF g) (hbs : binaryDF s)
    {p : ℕ × ℕ} (h1 : p.1 < (interCols g s).length)
    (h2 : p.2 < (interCols g s).length) :
    adIsError g s p ↔ specADViol g s p := by
  have hg1 := binary_col_first hbg (colAt_mem h1)
  have hg2 := binary_col_first hbg (colAt_mem h2)
  have hs1 := binary_col_second hbs (colAt_mem h1)
  have hs2 := binary_col_second hbs (colAt_mem h2)
  unfold adIsError specADViol
  rw [capSum_zero_iff hs1 hs2, colSum_eq_supp hg1, colSum_eq_supp hg2,
    colSum_eq_supp hs1, colSum_eq_supp hs2]
  constructor
  · rintro (h | ⟨ha, hb⟩ | ⟨ha, hb⟩)
    · exact Or.inl h
    · exact Or.inr (Or.inl ⟨by exact_mod_cast ha, by exact_mod_cast hb⟩)
    · exact Or.inr (Or.inr ⟨by exact_mod_cast ha, by exact_mod_cast hb⟩)
  · rintro (h | ⟨ha, hb⟩ | ⟨ha, hb⟩)
    · exact Or.inl h
    · exact Or.inr (Or.inl ⟨by exact_mod_cast ha, by exact_mod_cast hb⟩)
    · exact Or.inr (Or.inr ⟨by exact_mod_cast ha, by exact_mod_cast hb⟩)

theorem n_adpairs_eq_spec {g s : DFrame} (hbg : binaryDF g) :
    n_adpairs g s = specADDen g s := by
  unfold n_adpairs specADDen loopPairs strictPairs
  rw [Finset.filter_filter, Finset.filter_filter]
  congr 1
  refine Finset.filter_congr fun x hx => ?_
  rw [Finset.mem_product, Finset.mem_range, Finset.mem_range] at hx
  constructor
  · rintro ⟨hle, hpair⟩
    refine ⟨?_, (adIsPair_iff_spec hbg hx.1 hx.2).mp hpair⟩
    rcases lt_or_eq_of_le hle with h | h
    · exact h
    · exfalso
      unfold adIsPair at hpair
      rw [h] at hpair
      exact hpair.2 rfl
  · rintro ⟨hlt, hspec⟩
    exact ⟨le_of_lt hlt, (adIsPair_iff_spec hbg hx.1 hx.2).mpr hspec⟩

theorem n_aderrors_eq_spec {g s : DFrame} (hbg : binaryDF g) (hbs : binaryDF s) :
    n_aderrors g s = specADViolN g s := by
  unfold n_aderrors specADViolN loopPairs strictPairs
  rw [Finset.filter_filter, Finset.filter_filter]
  congr 1
  refine Finset.filter_congr fun x hx => ?_
  rw [Finset.mem_product, Finset.mem_range, Finset.mem_range] at hx
  constructor
  · rintro ⟨hle, hpair, herr⟩
    refine ⟨?_, (adIsPair_iff_spec hbg hx.1 hx.2).mp hpair,
      (adIsError_iff_spec hbg hbs hx.1 hx.2).mp herr⟩
    rcases lt_or_eq_of_le hle with h | h
    · exact h
    · exfalso
      unfold adIsPair at hpair
      rw [h] at hpair
      exact hpair.2 rfl
  · rintro ⟨hlt, hspec, hviol⟩
    exact ⟨le_of_lt hlt, (adIsPair_iff_spec hbg hx.1 hx.2).mpr hspec,
      (adIsError_iff_spec hbg hbs hx.1 hx.2).mpr hviol⟩

/-! ## Claims C5-C10 -/

/-- C5: on binary frames, `ad` computes exactly the spec's ancestor-descendant
score over the shared mutation columns: the denominator counts unordered
pairs whose ground-truth supports intersect with unequal sizes, a pair is
violated iff the candidate supports are disjoint or the ground-truth-larger
side is smaller-or-equal in the candidate, and the result is 1 minus violated
over total (not-applicable on a zero denominator). -/
theorem claim5_ad_matches_spec (g s : DFrame) (hbg : binaryDF g)
    (hbs : binaryDF s) : ad g s = specAD g s := by
  unfold ad specAD abortScore
  by_cases hI : interCols g s = []
  · rw [if_pos hI]
    have hden : specADDen g s = 0 := by
      unfold specADDen strictPairs
      rw [hI]
      simp
    rw [if_pos hden]
  · rw [if_neg hI, n_adpairs_eq_spec hbg, n_aderrors_eq_spec hbg hbs]

/-- C5 witness: a concrete binary comparison (the candidate breaks one
ancestor-descendant pair). -/
theorem claim5_witness :
    ad ⟨["c1", "c2", "c3"], ["m1", "m2"],
        fun i j => if j = 0 then (if i ≤ 1 then 1 else 0) else if i = 1 then 1 else 0⟩
      ⟨["c1", "c2", "c3"], ["m1", "m2"],
        fun i j => if j = 0 then (if i = 0 then 1 else 0) else if i = 1 then 1 else 0⟩ =
    specAD ⟨["c1", "c2", "c3"], ["m1", "m2"],
        fun i j => if j = 0 then (if i ≤ 1 then 1 else 0) else if i = 1 then 1 else 0⟩
      ⟨["c1", "c2", "c3"], ["m1", "m2"],
        fun i j => if j = 0 then (if i = 0 then 1 else 0) else if i = 1 then 1 else 0⟩ :=
  claim5_ad_matches_spec _ _ (by decide) (by decide)

/-- C6: with a nonempty intersection, `tpted` returns exactly
`1 - ed / (2 * (k + 1))` where `k` counts the shared mutations left after the
germline-absorbed mutations of both trees are removed, and the value is not
clamped: it is negative exactly when the edit distance exceeds the
normalization bound `2 * (k + 1)`. -/
theorem claim6_tpted_formula (g s : DFrame) (gg sg : List String) (ed : ℕ)
    (hI : interCols g s ≠ []) :
    tpted g s gg sg ed =
      some (1 - (ed : ℚ) / (2 * ((tptedShared g s gg sg : ℚ) + 1))) ∧
      (2 * (tptedShared g s gg sg + 1) < ed →
        1 - (ed : ℚ) / (2 * ((tptedShared g s gg sg : ℚ) + 1)) < 0) := by
  constructor
  · unfold tpted
    rw [if_neg hI]
  · intro hlt
    have hden : (0 : ℚ) < 2 * ((tptedShared g s gg sg : ℚ) + 1) := by positivity
    rw [sub_neg, lt_div_iff₀ hden]
    have hcast : ((2 * (tptedShared g s gg sg + 1) : ℕ) : ℚ) < (ed : ℚ) := by
      exact_mod_cast hlt
    push_cast at hcast
    linarith

/-- C6 witness: one shared mutation, no germline-absorbed mutations, external
edit distance 10: the score is 1 - 10/4 < 0 and is returned unclamped. -/
theorem claim6_witness :
    tpted ⟨["c1"], ["m1"], fun _ _ => 1⟩ ⟨["c1"], ["m1"], fun _ _ => 1⟩ [] [] 10 =
      some (1 - (10 : ℚ) /
        (2 * ((tptedShared ⟨["c1"], ["m1"], fun _ _ => 1⟩
          ⟨["c1"], ["m1"], fun _ _ => 1⟩ [] [] : ℚ) + 1))) ∧
      (2 * (tptedShared ⟨["c1"], ["m1"], fun _ _ => 1⟩
          ⟨["c1"], ["m1"], fun _ _ => 1⟩ [] [] + 1) < 10 →
        1 - (10 : ℚ) / (2 * ((tptedShared ⟨["c1"], ["m1"], fun _ _ => 1⟩
          ⟨["c1"], ["m1"], fun _ _ => 1⟩ [] [] : ℚ) + 1)) < 0) :=
  claim6_tpted_formula _ _ [] [] 10 (by decide)

/-- C7: whenever `ad`'s denominator `n_adpairs` is zero, `ad` ends with no
numeric score, and independently, whenever `dl`'s denominator `n_dlpairs1` is
zero, `dl` ends with no numeric score: the outcome is the not-applicable
value `none`, distinct from `some 0` and from `some 1`. -/
theorem claim7_zero_denominator (g s : DFrame) :
    (n_adpairs g s = 0 →
      ad g s = none ∧ ad g s ≠ some 0 ∧ ad g s ≠ some 1) ∧
      (n_dlpairs1 g s = 0 →
        dl g s = none ∧ dl g s ≠ some 0 ∧ dl g s ≠ some 1) := by
  constructor
  · intro had
    have h1 : ad g s = none := by
      unfold ad abortScore
      by_cases hI : interCols g s = []
      · rw [if_pos hI]
      · rw [if_neg hI, if_pos had]
    refine ⟨h1, ?_, ?_⟩ <;> simp [h1]
  · intro hdl
    have h2 : dl g s = none := by
      unfold dl abortScore
      by_cases hI : interCols g s = []
      · rw [if_pos hI]
      · rw [if_neg hI, if_pos hdl]
    refine ⟨h2, ?_, ?_⟩ <;> simp [h2]

/-- C7 witness, exercising the two mixed cases: two disjoint nonempty shared
columns (`n_adpairs = 0` while `n_dlpairs1 = 1`) make `ad` alone
not-applicable, and two nested columns (`n_adpairs = 1` while
`n_dlpairs1 = 0`) make `dl` alone not-applicable. -/
theorem claim7_witness :
    (ad ⟨["c1", "c2"], ["m1", "m2"], fun i j => if i = j then 1 else 0⟩
        ⟨["c1", "c2"], ["m1", "m2"], fun i j => if i = j then 1 else 0⟩ = none ∧
      ad ⟨["c1", "c2"], ["m1", "m2"], fun i j => if i = j then 1 else 0⟩
        ⟨["c1", "c2"], ["m1", "m2"], fun i j => if i = j then 1 else 0⟩ ≠ some 0 ∧
      ad ⟨["c1", "c2"], ["m1", "m2"], fun i j => if i = j then 1 else 0⟩
        ⟨["c1", "c2"], ["m1", "m2"], fun i j => if i = j then 1 else 0⟩ ≠ some 1) ∧
      (dl ⟨["c1", "c2"], ["m1", "m2"],
          fun i j => if j = 0 then 1 else if i = 1 then 1 else 0⟩
        ⟨["c1", "c2"], ["m1", "m2"],
          fun i j => if j = 0 then 1 else if i = 1 then 1 else 0⟩ = none ∧
      dl ⟨["c1", "c2"], ["m1", "m2"],
          fun i j => if j = 0 then 1 else if i = 1 then 1 else 0⟩
        ⟨["c1", "c2"], ["m1", "m2"],
          fun i j => if j = 0 then 1 else if i = 1 then 1 else 0⟩ ≠ some 0 ∧
      dl ⟨["c1", "c2"], ["m1", "m2"],
          fun i j => if j = 0 then 1 else if i = 1 then 1 else 0⟩
        ⟨["c1", "c2"], ["m1", "m2"],
          fun i j => if j = 0 then 1 else if i = 1 then 1 else 0⟩ ≠ some 1) :=
  ⟨(claim7_zero_denominator _ _).1 (by decide),
    (claim7_zero_denominator _ _).2 (by decide)⟩

/-- C8 counterexample: the claim predicts that `mltd` aborts whenever the two
matrices share no mutation identifier, but the frames with single columns
"a:b" and "a=b" share nothing, collide after the in-place sanitization of
lines 210-211, pass the emptiness test and reach the external tool. -/
theorem claim8_counterexample :
    interCols ⟨["c1"], ["a:b"], fun _ _ => 1⟩ ⟨["c1"], ["a=b"], fun _ _ => 1⟩ = [] ∧
      mltd ⟨["c1"], ["a:b"], fun _ _ => 1⟩ ⟨["c1"], ["a=b"], fun _ _ => 1⟩ ≠ none := by
  decide

/-- C8 (amended): an empty shared-mutation set alone makes `gs`, `ad`, `dl`
and `tpted` abort with an error and return no score; an empty shared-cell
set alone makes `gs` abort; and `mltd` applies its test after replacing ':'
and '=' by '_' in both column indexes, so it aborts exactly when the
sanitized label sets are disjoint. -/
theorem claim8_empty_intersection_aborts (g s : DFrame) (gg sg : List String)
    (ed : ℕ) :
    (interCols g s = [] →
      gs g s = none ∧ ad g s = none ∧ dl g s = none ∧ tpted g s gg sg ed = none) ∧
      (interRows g s = [] → gs g s = none) ∧
      (mltd g s = none ↔ interCols (sanitizeDF g) (sanitizeDF s) = []) := by
  refine ⟨fun hm => ⟨?_, ?_, ?_, ?_⟩, fun hc => ?_, ?_⟩
  · unfold gs abortScore
    rw [if_pos (Or.inl hm)]
  · unfold ad abortScore
    rw [if_pos hm]
  · unfold dl abortScore
    rw [if_pos hm]
  · unfold tpted abortScore
    rw [if_pos hm]
  · unfold gs abortScore
    rw [if_pos (Or.inr hc)]
  · unfold mltd abortScore
    by_cases hsan : interCols (sanitizeDF g) (sanitizeDF s) = []
    · rw [if_pos hsan]
      simp [hsan]
    · rw [if_neg hsan]
      simp [hsan]

/-- C8 witness: the frames with single columns "a:b" and "a=b" share no
mutation identifiers, so `gs`, `ad`, `dl` and `tpted` abort, while their
sanitized labels collide, so `mltd` does not. -/
theorem claim8_witness :
    (gs ⟨["c1"], ["a:b"], fun _ _ => 1⟩ ⟨["c1"], ["a=b"], fun _ _ => 1⟩ = none ∧
      ad ⟨["c1"], ["a:b"], fun _ _ => 1⟩ ⟨["c1"], ["a=b"], fun _ _ => 1⟩ = none ∧
      dl ⟨["c1"], ["a:b"], fun _ _ => 1⟩ ⟨["c1"], ["a=b"], fun _ _ => 1⟩ = none ∧
      tpted ⟨["c1"], ["a:b"], fun _ _ => 1⟩ ⟨["c1"], ["a=b"], fun _ _ => 1⟩ [] [] 3 = none) ∧
      mltd ⟨["c1"], ["a:b"], fun _ _ => 1⟩ ⟨["c1"], ["a=b"], fun _ _ => 1⟩ ≠ none := by
  have h := claim8_empty_intersection_aborts ⟨["c1"], ["a:b"], fun _ _ => 1⟩
    ⟨["c1"], ["a=b"], fun _ _ => 1⟩ [] [] 3
  refine ⟨h.1 (by decide), fun hnone => ?_⟩
  have hsan := h.2.2.mp hnone
  revert hsan
  decide

/-! ### Self-comparison (claim C9) -/

theorem interCols_self (M : DFrame) : interCols M M = M.cols := by
  unfold interCols
  rw [List.filter_eq_self]
  intro c hc
  exact List.elem_eq_true_of_mem hc

theorem interRows_self (M : DFrame) : interRows M M = M.rows := by
  unfold interRows
  rw [List.filter_eq_self]
  intro r hr
  exact List.elem_eq_true_of_mem hr

theorem n_adpairs_ne_inter {g s : DFrame} (h : n_adpairs g s ≠ 0) :
    interCols g s ≠ [] := by
  intro hI
  apply h
  unfold n_adpairs loopPairs
  rw [hI]
  simp

theorem n_dlpairs1_ne_inter {g s : DFrame} (h : n_dlpairs1 g s ≠ 0) :
    interCols g s ≠ [] := by
  intro hI
  apply h
  unfold n_dlpairs1 loopPairs
  rw [hI]
  simp

/-- C9: comparing a conflict-free binary matrix with itself gives perfect
scores: `gs` is 1 (when the shared sets are nonempty), `ad` is 1 (when its
denominator is nonzero) and `dl` is 1 (when its denominator is nonzero). -/
theorem claim9_self_scores_one (M : DFrame) (hcf : isCF M = true) :
    (M.rows ≠ [] → M.cols ≠ [] → gs M M = some 1) ∧
      (n_adpairs M M ≠ 0 → ad M M = some 1) ∧
      (n_dlpairs1 M M ≠ 0 → dl M M = some 1) := by
  refine ⟨?_, ?_, ?_⟩
  · intro hr hc
    unfold gs abortScore
    rw [interCols_self, interRows_self]
    rw [if_neg (by rw [not_or]; exact ⟨hc, hr⟩)]
    have hz : ((M.rows.map fun r =>
        (M.cols.map fun c => |M.entry r c - M.entry r c|).sum).sum) = 0 := by
      apply List.sum_eq_zero
      intro x hx
      rw [List.mem_map] at hx
      obtain ⟨r, -, rfl⟩ := hx
      apply List.sum_eq_zero
      intro y hy
      rw [List.mem_map] at hy
      obtain ⟨c, -, rfl⟩ := hy
      simp
    rw [hz]
    norm_num
  · intro had
    unfold ad abortScore
    rw [if_neg (n_adpairs_ne_inter had), if_neg had]
    have herr : n_aderrors M M = 0 := by
      unfold n_aderrors
      rw [Finset.card_eq_zero, Finset.filter_eq_empty_iff]
      rintro p - ⟨hpair, herror⟩
      unfold adIsPair at hpair
      unfold adIsError at herror
      rcases herror with h | h | h <;> omega
    rw [herr]
    norm_num
  · intro hdl
    unfold dl abortScore
    rw [if_neg (n_dlpairs1_ne_inter hdl), if_neg hdl]
    have heq : n_dlpairs2 M M = n_dlpairs1 M M := by
      unfold n_dlpairs2 n_dlpairs1
      congr 1
      refine Finset.filter_congr fun x _ => ?_
      exact ⟨fun h => h.1, fun h => ⟨h, h⟩⟩
    rw [heq, div_self (by exact_mod_cast hdl)]

/-- C9 witness: the chain-plus-branch matrix with columns {c1,c2}, {c2}, {c3}
is conflict-free and holds an ancestor-descendant and a different-lineage
pair; all three self-scores are 1. -/
theorem claim9_witness :
    (DFrame.rows ⟨["c1", "c2", "c3"], ["m1", "m2", "m3"],
        fun i j => if j = 0 then (if i ≤ 1 then 1 else 0)
          else if j = 1 then (if i = 1 then 1 else 0)
          else if i = 2 then 1 else 0⟩ ≠ [] →
      DFrame.cols ⟨["c1", "c2", "c3"], ["m1", "m2", "m3"],
        fun i j => if j = 0 then (if i ≤ 1 then 1 else 0)
          else if j = 1 then (if i = 1 then 1 else 0)
          else if i = 2 then 1 else 0⟩ ≠ [] →
      gs ⟨["c1", "c2", "c3"], ["m1", "m2", "m3"],
        fun i j => if j = 0 then (if i ≤ 1 then 1 else 0)
          else if j = 1 then (if i = 1 then 1 else 0)
          else if i = 2 then 1 else 0⟩
        ⟨["c1", "c2", "c3"], ["m1", "m2", "m3"],
        fun i j => if j = 0 then (if i ≤ 1 then 1 else 0)
          else if j = 1 then (if i = 1 then 1 else 0)
          else if i = 2 then 1 else 0⟩ = some 1) ∧
      (n_adpairs ⟨["c1", "c2", "c3"], ["m1", "m2", "m3"],
        fun i j => if j = 0 then (if i ≤ 1 then 1 else 0)
          else if j = 1 then (if i = 1 then 1 else 0)
          else if i = 2 then 1 else 0⟩
        ⟨["c1", "c2", "c3"], ["m1", "m2", "m3"],
        fun i j => if j = 0 then (if i ≤ 1 then 1 else 0)
          else if j = 1 then (if i = 1 then 1 else 0)
          else if i = 2 then 1 else 0⟩ ≠ 0 →
      ad ⟨["c1", "c2", "c3"], ["m1", "m2", "m3"],
        fun i j => if j = 0 then (if i ≤ 1 then 1 else 0)
          else if j = 1 then (if i = 1 then 1 else 0)
          else if i = 2 then 1 else 0⟩
        ⟨["c1", "c2", "c3"], ["m1", "m2", "m3"],
        fun i j => if j = 0 then (if i ≤ 1 then 1 else 0)
          else if j = 1 then (if i = 1 then 1 else 0)
          else if i = 2 then 1 else 0⟩ = some 1) ∧
      (n_dlpairs1 ⟨["c1", "c2", "c3"], ["m1", "m2", "m3"],
        fun i j => if j = 0 then (if i ≤ 1 then 1 else 0)
          else if j = 1 then (if i = 1 then 1 else 0)
          else if i = 2 then 1 else 0⟩
        ⟨["c1", "c2", "c3"], ["m1", "m2", "m3"],
        fun i j => if j = 0 then (if i ≤ 1 then 1 else 0)
          else if j = 1 then (if i = 1 then 1 else 0)
          else if i = 2 then 1 else 0⟩ ≠ 0 →
      dl ⟨["c1", "c2", "c3"], ["m1", "m2", "m3"],
        fun i j => if j = 0 then (if i ≤ 1 then 1 else 0)
          else if j = 1 then (if i = 1 then 1 else 0)
          else if i = 2 then 1 else 0⟩
        ⟨["c1", "c2", "c3"], ["m1", "m2", "m3"],
        fun i j => if j = 0 then (if i ≤ 1 then 1 else 0)
          else if j = 1 then (if i = 1 then 1 else 0)
          else if i = 2 then 1 else 0⟩ = some 1) :=
  claim9_self_scores_one _ (by decide)

/-- C10 counterexample: `mltd` leaves the caller's first DataFrame with a
rewritten column index when a label holds ':', contradicting the claim that
no scoring operation mutates its inputs. -/
theorem claim10_counterexample :
    (mltd_post ⟨["c1"], ["m:1"], fun _ _ => 1⟩
      ⟨["c1"], ["m2"], fun _ _ => 1⟩).1.cols ≠
      DFrame.cols ⟨["c1"], ["m:1"], fun _ _ => 1⟩ := by
  decide

/-- C10 (amended): `gs`, `ad`, `dl`, `cc` and `tpted` leave both caller
DataFrames exactly as supplied; `mltd` preserves row identifiers and values
but replaces ':' and '=' by '_' in the column identifiers of both inputs. -/
theorem claim10_post_states (g s : DFrame) :
    gs_post g s = (g, s) ∧ ad_post g s = (g, s) ∧ dl_post g s = (g, s) ∧
      cc_post g s = (g, s) ∧ tpted_post g s = (g, s) ∧
      (mltd_post g s).1.rows = g.rows ∧ (mltd_post g s).2.rows = s.rows ∧
      (mltd_post g s).1.val = g.val ∧ (mltd_post g s).2.val = s.val ∧
      (mltd_post g s).1.cols = g.cols.map sanitizeLabel ∧
      (mltd_post g s).2.cols = s.cols.map sanitizeLabel :=
  ⟨rfl, rfl, rfl, rfl, rfl, rfl, rfl, rfl, rfl, rfl, rfl⟩

end Scphylo
